import Mathlib

/-!
Shallow embedding of the `polykit-number-utils` core module
(`src/core/index.ts` together with `src/core/utils.ts`), and proofs about it.

Modelling conventions:
* A JavaScript `number` is modelled by `JSNum`: either a finite value,
  represented exactly as a rational, or one of the non-finite values
  `NaN`, `+Infinity`, `-Infinity`.  Double-precision rounding is not
  modelled; finite arithmetic is exact rational arithmetic.
* A function that can `throw NumberFormatError` is modelled as returning
  `Except NumberFormatError _`.
* TypeScript option records with optional fields are modelled as structures
  of `Option`-typed fields (`none` = the field is absent, so that
  `Object.keys(options).length === 0` corresponds to all fields `none`);
  the defaults of the source are applied inside each function, as in the
  source's destructuring.
* `Math.random()` is modelled by an explicit `draw` argument in `[0,1)`.
* The host's `Intl.NumberFormat` currency formatter is modelled as an
  explicit function argument; `none` models a host exception.
-/

namespace PolyKit

/-- A JavaScript `number`: a finite value (modelled as an exact rational),
`NaN`, or one of the two infinities. -/
inductive JSNum where
  | finite (q : ℚ)
  | nan
  | posInf
  | negInf
deriving DecidableEq, Repr

/-- The error class of `src/core/utils.ts` (`NumberFormatError`),
carrying its message. -/
structure NumberFormatError where
  message : String
deriving DecidableEq, Repr

/-- Predicate `isValidNumber` of `src/core/utils.ts`: a number that is
neither `NaN` nor infinite. -/
def isValidNumber : JSNum → Bool
  | .finite _ => true
  | _ => false

/-- Predicate `isValidDecimals` of `src/core/utils.ts`: an integer in
`[0, 20]`.  Decimal counts are modelled as integers. -/
def isValidDecimals (decimals : ℤ) : Bool :=
  0 ≤ decimals ∧ decimals ≤ 20

/-- Predicate `isValidSeparator` of `src/core/utils.ts`: a string of at
most 3 characters. -/
def isValidSeparator (separator : String) : Bool :=
  separator.length ≤ 3

/-- `Number.MAX_SAFE_INTEGER` = 2^53 - 1. -/
def maxSafeInteger : ℚ := 9007199254740991

/-- JS `Math.round`: round to nearest, ties toward positive infinity. -/
def jsRound (q : ℚ) : ℤ := ⌊q + 1/2⌋

/-- JS `Math.ceil`. -/
def jsCeil (q : ℚ) : ℤ := ⌈q⌉

/-- JS `Math.floor`. -/
def jsFloor (q : ℚ) : ℤ := ⌊q⌋

/-- JS `Math.trunc`: round toward zero. -/
def jsTrunc (q : ℚ) : ℤ := if 0 ≤ q then ⌊q⌋ else ⌈q⌉

/-- The rounding modes of `src/core/types.ts` (`RoundingMode`). -/
inductive RoundingMode where
  | ceil
  | floor
  | round
  | trunc
deriving DecidableEq, Repr

/-- `clamp` of `src/core/index.ts`: validates all three inputs, then
returns `Math.min(Math.max(value, min), max)`. -/
def clamp (value mn mx : JSNum) : Except NumberFormatError ℚ :=
  match value, mn, mx with
  | .finite v, .finite lo, .finite hi => .ok (min (max v lo) hi)
  | _, _, _ => .error ⟨"Invalid number input"⟩

/-- `roundToPrecision` of `src/core/index.ts`: scales by `10^precision`,
applies the rounding mode, rescales.  The source computes
`Math.pow(10, precision)`; with a valid precision this is `10^precision`
with a nonnegative exponent. -/
def roundToPrecision (value : JSNum) (precision : ℤ) (mode : RoundingMode) :
    Except NumberFormatError ℚ :=
  match value with
  | .finite v =>
    if ¬ isValidDecimals precision then .error ⟨"Invalid precision value"⟩
    else
      let multiplier : ℚ := (10 : ℚ) ^ precision
      match mode with
      | .ceil => .ok ((jsCeil (v * multiplier) : ℚ) / multiplier)
      | .floor => .ok ((jsFloor (v * multiplier) : ℚ) / multiplier)
      | .trunc => .ok ((jsTrunc (v * multiplier) : ℚ) / multiplier)
      | .round => .ok ((jsRound (v * multiplier) : ℚ) / multiplier)
  | _ => .error ⟨"Invalid number input"⟩

/-- `random` of `src/core/index.ts`.  The outcome of `Math.random()` is
passed explicitly as `draw` (a value in `[0,1)`); the function computes
`draw * (max - min) + min` and rounds it with `roundToPrecision` in the
default `round` mode. -/
def random (mn mx : JSNum) (decimals : ℤ) (draw : ℚ) :
    Except NumberFormatError ℚ :=
  match mn, mx with
  | .finite lo, .finite hi =>
    if ¬ isValidDecimals decimals then .error ⟨"Invalid decimals value"⟩
    else if lo > hi then .error ⟨"Min value cannot be greater than max value"⟩
    else roundToPrecision (.finite (draw * (hi - lo) + lo)) decimals .round
  | _, _ => .error ⟨"Invalid number input"⟩

/-- `normalize` of `src/core/index.ts`: `(value - min) / (max - min)`,
rejecting `min >= max`. -/
def normalize (value mn mx : JSNum) : Except NumberFormatError ℚ :=
  match value, mn, mx with
  | .finite v, .finite lo, .finite hi =>
    if lo ≥ hi then .error ⟨"Min value must be less than max value"⟩
    else .ok ((v - lo) / (hi - lo))
  | _, _, _ => .error ⟨"Invalid number input"⟩

/-- `interpolate` of `src/core/index.ts`: `start + (end - start) * factor`,
rejecting a factor outside `[0,1]`. -/
def interpolate (startVal endVal factor : JSNum) :
    Except NumberFormatError ℚ :=
  match startVal, endVal, factor with
  | .finite s, .finite e, .finite f =>
    if f < 0 ∨ f > 1 then .error ⟨"Factor must be between 0 and 1"⟩
    else .ok (s + (e - s) * f)
  | _, _, _ => .error ⟨"Invalid number input"⟩

/-- The `NumberPrecision` record of `src/core/types.ts`. -/
structure NumberPrecision where
  absolute : Option ℚ
  relative : Option ℚ
deriving DecidableEq, Repr

/-- `isApproximatelyEqual` of `src/core/index.ts`.  With a relative
tolerance it computes `avg = |a + b| / 2` and, when `avg` is nonzero,
compares `|a - b| / avg` against the relative tolerance; when `avg` is
zero it falls back to the absolute tolerance (default `1e-10`). -/
def isApproximatelyEqual (a b : JSNum) (precision : NumberPrecision) :
    Except NumberFormatError Bool :=
  match a, b with
  | .finite x, .finite y =>
    let absolute := precision.absolute.getD (1 / 10 ^ 10)
    match precision.relative with
    | some r =>
      let avg := |x + y| / 2
      if avg = 0 then .ok (decide (|x - y| < absolute))
      else .ok (decide (|x - y| / avg < r))
    | none => .ok (decide (|x - y| < absolute))
  | _, _ => .error ⟨"Invalid number input"⟩

/-- Modelled from the spec: `isApproximatelyEqual` as the specification
describes it — "compares `|a−b|` against relative×average-magnitude
(falling back to absolute tolerance when the average magnitude is zero)",
where the average magnitude of `a` and `b` is `(|a| + |b|) / 2`.  This
definition exists only to be compared against the source-derived
`isApproximatelyEqual` above. -/
def isApproximatelyEqualSpec (a b : JSNum) (precision : NumberPrecision) :
    Except NumberFormatError Bool :=
  match a, b with
  | .finite x, .finite y =>
    let absolute := precision.absolute.getD (1 / 10 ^ 10)
    match precision.relative with
    | some r =>
      let avgMagnitude := (|x| + |y|) / 2
      if avgMagnitude = 0 then .ok (decide (|x - y| < absolute))
      else .ok (decide (|x - y| / avgMagnitude < r))
    | none => .ok (decide (|x - y| < absolute))
  | _, _ => .error ⟨"Invalid number input"⟩

/-- The decimal digit character for `n % 10`. -/
def digitChar (n : ℕ) : Char := Char.ofNat (48 + n % 10)

/-- Decimal digits of a natural number, most significant first
(fuel-based so that it is structurally recursive; `natDigits` supplies
enough fuel). -/
def natDigitsAux : ℕ → ℕ → List Char
  | 0, _ => []
  | fuel + 1, n =>
    if n < 10 then [digitChar n]
    else natDigitsAux fuel (n / 10) ++ [digitChar (n % 10)]

/-- Decimal digits of a natural number, most significant first; the
rendering a JS engine produces for a nonnegative safe integer. -/
def natDigits (n : ℕ) : List Char := natDigitsAux (n + 1) n

/-- Digits of `n` left-padded with `'0'` to width `w` (the fractional
block of `toFixed`). -/
def padZeros (w : ℕ) (n : ℕ) : List Char :=
  List.replicate (w - (natDigits n).length) '0' ++ natDigits n

/-- Effect of the source's grouping regex
`replace(/\B(?=(\d{3})+(?!\d))/g, sep)` on a pure digit string: the
separator is inserted at every inner position that has a positive
multiple of 3 digits to its right. -/
def groupDigits (sep : List Char) : List Char → List Char
  | [] => []
  | c :: rest =>
    if rest ≠ [] ∧ rest.length % 3 = 0 then c :: (sep ++ groupDigits sep rest)
    else c :: groupDigits sep rest

/-- Helper for `groupDigitsSpec`: walks a reversed digit list, emitting
the (reversed) separator after every third character, never at the end.
The counter is the number of characters still to emit before the next
separator. -/
def revGroup (sep : List Char) : ℕ → List Char → List Char
  | _, [] => []
  | 0, c :: rest => sep ++ (c :: revGroup sep 2 rest)
  | k + 1, c :: rest => c :: revGroup sep k rest

/-- Modelled from the spec: "inserts the thousands separator every 3
digits from the right in the integer part" — the digit list is walked
from the right, a separator dropped after each block of 3 digits.  This
definition exists only to be compared against the source-derived
`groupDigits` above. -/
def groupDigitsSpec (sep : List Char) (digits : List Char) : List Char :=
  (revGroup sep.reverse 3 digits.reverse).reverse

/-- The integer and fractional digit blocks of `x.toFixed(d)` for
`x ≥ 0`: ECMA-262 rounds `x` to the integer `n` closest to `x·10^d`
(ties to the larger `n`, i.e. half-up for nonnegative `x`). -/
def toFixedParts (x : ℚ) (d : ℕ) : List Char × List Char :=
  let scaled : ℕ := (⌊x * 10 ^ d + 1/2⌋).toNat
  (natDigits (scaled / 10 ^ d), padZeros d (scaled % 10 ^ d))

/-- JS `Number.prototype.toExponential(d)`, modelled for magnitudes
`≥ 1` (the only regime in which the library reaches it: `formatNumber`
calls it only when the magnitude is at least `Number.MAX_SAFE_INTEGER`).
The exponent is the digit count of the integer part minus one; the
mantissa is rounded half-up to `d` fractional digits, carrying into the
exponent when it rounds up to 10. -/
def jsToExponential (q : ℚ) (d : ℕ) : String :=
  let a := |q|
  let e0 : ℕ := (natDigits (⌊a⌋).toNat).length - 1
  let n : ℤ := ⌊a / 10 ^ e0 * 10 ^ d + 1/2⌋
  let carried : ℤ × ℕ := if n = 10 ^ (d + 1) then ((10 : ℤ) ^ d, e0 + 1) else (n, e0)
  let mantissa : List Char :=
    match natDigits carried.1.toNat with
    | [] => ['0']
    | c :: rest => if d = 0 then [c] else c :: '.' :: rest
  String.mk ((if q < 0 then ['-'] else []) ++ mantissa ++ 'e' :: '+' :: natDigits carried.2)

/-- The `NumberFormatOptions` record of `src/core/types.ts`. -/
structure NumberFormatOptions where
  decimals : Option ℤ
  thousandsSeparator : Option String
  decimalSeparator : Option String
  fallback : Option String
deriving DecidableEq, Repr

/-- `formatNumber` of `src/core/index.ts`.  Defaults: 2 decimals,
`','`/`'.'` separators, fallback `"0"` (so an invalid number falls back
unless the caller explicitly configures an empty — falsy — fallback).
Validation order follows the source: number, decimals, separators,
separator difference.  Magnitude at or beyond `MAX_SAFE_INTEGER` is
rendered with `toExponential`; otherwise the absolute value is rendered
with `toFixed(decimals)`, the integer part grouped by the regex, the
parts joined with the decimal separator, and the sign restored. -/
def formatNumber (value : JSNum) (options : NumberFormatOptions) :
    Except NumberFormatError String :=
  let decimals := options.decimals.getD 2
  let thousandsSeparator := options.thousandsSeparator.getD ","
  let decimalSeparator := options.decimalSeparator.getD "."
  let fallback := options.fallback.getD "0"
  match value with
  | .finite v =>
    if ¬ isValidDecimals decimals then
      .error ⟨"Invalid decimals value: must be an integer between 0 and 20"⟩
    else if ¬ (isValidSeparator thousandsSeparator ∧ isValidSeparator decimalSeparator) then
      .error ⟨"Invalid separator: must be a string of 1-3 characters"⟩
    else if thousandsSeparator = decimalSeparator then
      .error ⟨"Thousand separator and decimal separator must be different"⟩
    else if maxSafeInteger ≤ |v| then
      .ok (jsToExponential v decimals.toNat)
    else
      let parts := toFixedParts |v| decimals.toNat
      let joined :=
        groupDigits thousandsSeparator.data parts.1 ++
          (if decimals.toNat = 0 then [] else decimalSeparator.data ++ parts.2)
      .ok (String.mk (if v < 0 then '-' :: joined else joined))
  | _ =>
    if fallback ≠ "" then .ok fallback else .error ⟨"Invalid number input"⟩

/-- Modelled from the spec: the grouped fixed-decimal rendering as the
claim describes it — "formats the absolute value to the fixed decimal
count, inserts the thousands separator every 3 digits from the right in
the integer part, joins with the decimal separator, and restores the
sign".  Grouping uses the right-to-left `groupDigitsSpec`. -/
def fixedRenderSpec (q : ℚ) (d : ℕ) (ts ds : String) : String :=
  let parts := toFixedParts |q| d
  String.mk ((if q < 0 then ['-'] else []) ++
    groupDigitsSpec ts.data parts.1 ++
    (if d = 0 then [] else ds.data ++ parts.2))

/-- Modelled from the spec: the full expected output of `formatNumber`
for a valid finite value — exponential notation at or beyond
`MAX_SAFE_INTEGER`, the grouped fixed rendering otherwise. -/
def formatNumberSpec (q : ℚ) (d : ℕ) (ts ds : String) : String :=
  if maxSafeInteger ≤ |q| then jsToExponential q d else fixedRenderSpec q d ts ds

/-- The `CurrencyFormatOptions` record of `src/core/types.ts`.  Note the
source deliberately gives `fallback` no default. -/
structure CurrencyFormatOptions where
  currency : Option String
  locale : Option String
  fallback : Option String
  minimumFractionDigits : Option ℤ
  maximumFractionDigits : Option ℤ
  useGrouping : Option Bool
deriving DecidableEq, Repr

/-- `formatCurrency` of `src/core/index.ts`.  The host's
`Intl.NumberFormat(...).format` is modelled by the `intl` argument
(`none` models a host exception such as an unknown currency code).
Control flow of the source: an invalid number returns the fallback when
one is present (even an empty string) and otherwise throws; inside the
`try`, magnitude at or beyond `MAX_SAFE_INTEGER` throws a
`NumberFormatError`, which the `catch` re-throws unconditionally —
before the fallback is consulted; any other host failure returns the
fallback only when it is truthy (a nonempty string). -/
def formatCurrency (intl : CurrencyFormatOptions → ℚ → Option String)
    (value : JSNum) (options : CurrencyFormatOptions) :
    Except NumberFormatError String :=
  match value with
  | .finite v =>
    if maxSafeInteger ≤ |v| then .error ⟨"Value exceeds maximum safe integer"⟩
    else
      match intl options v with
      | some s => .ok s
      | none =>
        match options.fallback with
        | some f => if f ≠ "" then .ok f else .error ⟨"Currency formatting failed"⟩
        | none => .error ⟨"Currency formatting failed"⟩
  | _ =>
    match options.fallback with
    | some f => .ok f
    | none => .error ⟨"Invalid number input"⟩

/-- Characters matched by the `\s` class of the source's whitespace
stripping (the common JS whitespace characters). -/
def jsWhitespace (c : Char) : Bool :=
  c = ' ' ∨ c = '\t' ∨ c = '\n' ∨ c = '\r'

/-- Normalization step of `parseNumber` for the default `en-US` locale:
all whitespace is removed, every group separator `','` is removed, and
the first occurrence of the decimal separator `'.'` is replaced by `'.'`
(a no-op for this locale). -/
def normalizeNumString (s : String) : List Char :=
  (s.data.filter fun c => ¬ jsWhitespace c).filter fun c => c ≠ ','

/-- Drops a single leading sign character, as the `[-+]?` prefix of the
source's validation regex. -/
def stripSign : List Char → List Char
  | [] => []
  | c :: rest => if c = '-' ∨ c = '+' then rest else c :: rest

/-- The sign factor a leading `'-'` contributes. -/
def signOf : List Char → ℚ
  | '-' :: _ => -1
  | _ => 1

/-- The source's validation regex `/^[-+]?\d*\.?\d*$/`: optional sign,
digits, at most one period, digits. -/
def matchesNumPattern (cs : List Char) : Bool :=
  let body := stripSign cs
  match body.dropWhile (·.isDigit) with
  | [] => true
  | c :: rest => c = '.' ∧ rest.all (·.isDigit)

/-- Value of a list of decimal digit characters. -/
def natOfDigits (cs : List Char) : ℕ :=
  cs.foldl (fun a c => a * 10 + (c.toNat - 48)) 0

/-- The digits after the period of a digit-then-rest block: when the
non-digit remainder starts with `'.'`, its tail; otherwise there is no
fraction block. -/
def fracPartOf (cs : List Char) : List Char :=
  match cs with
  | '.' :: r => r
  | _ => []

/-- JS `Number(s)` restricted to the strings that can reach it in
`parseNumber`: the normalized string has passed the regex and is not one
of `''`, `'.'`, `'-'`, `'+'`.  A sign followed by a bare period (`'+.'`,
`'-.'`) parses to `NaN` (`none`); otherwise the value is the signed
place-value reading of the integer and fraction digit blocks. -/
def jsNumberOfNormalized (cs : List Char) : Option ℚ :=
  let body := stripSign cs
  let intDigits := body.takeWhile (·.isDigit)
  let fracDigits := fracPartOf (body.dropWhile (·.isDigit))
  if intDigits = [] ∧ fracDigits = [] then none
  else some (signOf cs *
    ((natOfDigits intDigits : ℚ) + (natOfDigits fracDigits : ℚ) / 10 ^ fracDigits.length))

/-- `parseNumber` of `src/core/index.ts` at the default `en-US` locale
(whose host-provided group separator is `','` and decimal separator is
`'.'`).  The source's `value.trim() === ''` test is modelled as "every
character is whitespace", which coincides with it. -/
def parseNumber (value : String) : Option ℚ :=
  if value.data.all jsWhitespace then none
  else
    let normalized := normalizeNumString value
    if normalized = [] ∨ normalized = ['.'] ∨ normalized = ['-'] ∨ normalized = ['+'] then none
    else if ¬ matchesNumPattern normalized then none
    else jsNumberOfNormalized normalized

/-- The `StatisticsOptions` record of `src/core/types.ts`. -/
structure StatisticsOptions where
  ignoreInvalid : Option Bool
  precision : Option ℤ
deriving DecidableEq, Repr

/-- `median` of `src/core/index.ts`, modelled for sequences of valid
finite numbers (the scope of the claims; for such sequences the
`ignoreInvalid` filter and the length comparison of the source are
identities).  The source sorts ascending with `sort((a, b) => a - b)` —
modelled by `insertionSort`, which produces the same (unique) sorted
list — and rounds the selected value with `roundToPrecision` at the
configured precision (default 2) in the default mode. -/
def median (numbers : List ℚ) (options : StatisticsOptions) :
    Except NumberFormatError ℚ :=
  let precision := options.precision.getD 2
  if numbers.length = 0 then .ok 0
  else
    let sorted := numbers.insertionSort (· ≤ ·)
    let mid := sorted.length / 2
    if sorted.length % 2 = 0 then
      roundToPrecision (.finite ((sorted.getD (mid - 1) 0 + sorted.getD mid 0) / 2))
        precision .round
    else
      roundToPrecision (.finite (sorted.getD mid 0)) precision .round

/-- The `NumberMaskOptions` record of `src/core/types.ts` (`end` is a
Lean keyword, hence `end_`). -/
structure NumberMaskOptions where
  start : Option ℕ
  end_ : Option ℕ
  mask : Option String
  preserveDecimals : Option Bool
deriving DecidableEq, Repr

/-- `Object.keys(options).length === 0`: no field is present. -/
def NumberMaskOptions.isEmpty (o : NumberMaskOptions) : Bool :=
  o.start = none ∧ o.end_ = none ∧ o.mask = none ∧ o.preserveDecimals = none

/-- JS `String.prototype.repeat` applied to a (possibly multi-character)
mask string. -/
def strRepeat (m : String) (n : ℕ) : List Char :=
  (List.replicate n m.data).flatten

/-- JS `s.slice(-e)` for a nonnegative count: `e = 0` yields the whole
string (`slice(-0)` is `slice(0)`), otherwise the last `min e len`
characters. -/
def jsSliceLast (cs : List Char) (e : ℕ) : List Char :=
  if e = 0 then cs else cs.drop (cs.length - e)

/-- Fractional decimal digits of a remainder `r / d` (`0 ≤ r < d`) by
long division, with fuel.  The expansion of any double terminates within
1100 digits, so the fuel used by `jsAbsToString` is never exhausted for
a value a JS engine can hold. -/
def fracDigitsAux : ℕ → ℕ → ℕ → List Char
  | 0, _, _ => []
  | _, 0, _ => []
  | fuel + 1, r, d => digitChar (r * 10 / d) :: fracDigitsAux fuel (r * 10 % d) d

/-- JS `Math.abs(value).toString()` for a finite value, in plain (non
exponential) decimal notation: integer digits, then a period and the
fractional digits when the value is not an integer. -/
def jsAbsToString (q : ℚ) : String :=
  let a := |q|
  let fds := fracDigitsAux 1100 (a.num.natAbs % a.den) a.den
  String.mk (natDigits (⌊a⌋).toNat ++ (if fds = [] then [] else '.' :: fds))

/-- The decimal part produced by `numStr.split('.')`: `some` of the
characters after the first `'.'` when one occurs, `none` otherwise. -/
def decPartOf (cs : List Char) : Option (List Char) :=
  match cs.dropWhile (· ≠ '.') with
  | '.' :: r => some r
  | _ => none

/-- `maskNumber` of `src/core/index.ts`.  `numStr.split('.')` is modelled
by splitting the digit list at the first `'.'`.  When a decimal part is
present the whole integer part is masked; otherwise the default branch
(no options at all) shows the last 2 digits, and the custom branch shows
`start` leading and `end` trailing digits.  A decimal part is preserved
under `preserveDecimals`, and otherwise masked with `'*'` for a
no-option call and `'#'` when any option was supplied; the sign is
restored only on the integer-only return path. -/
def maskNumber (value : JSNum) (options : NumberMaskOptions) :
    Except NumberFormatError String :=
  match value with
  | .finite v =>
    let start := options.start.getD 0
    let end_ := options.end_.getD 2
    let mask := options.mask.getD "*"
    let preserveDecimals := options.preserveDecimals.getD false
    let numStr := jsAbsToString v
    let intPart := numStr.data.takeWhile (· ≠ '.')
    let decPart? := decPartOf numStr.data
    let maskedInt :=
      match decPart? with
      | some _ => strRepeat mask intPart.length
      | none =>
        if start = 0 ∧ end_ = 2 ∧ options.isEmpty then
          strRepeat mask (intPart.length - 2) ++ jsSliceLast intPart 2
        else
          intPart.take start ++ strRepeat mask (intPart.length - start - end_) ++
            jsSliceLast intPart end_
    match decPart? with
    | some decPart =>
      if preserveDecimals then .ok (String.mk (maskedInt ++ '.' :: decPart))
      else
        let decimalMask := if options.isEmpty then "*" else "#"
        .ok (String.mk (maskedInt ++ '.' :: strRepeat decimalMask decPart.length))
    | none => .ok (String.mk (if v < 0 then '-' :: maskedInt else maskedInt))
  | _ => .error ⟨"Invalid number input"⟩

/-! ## C10: clamp with min > max -/

/-- C10: `clamp` does not validate that `min <= max`: for all valid finite
inputs with `min > max`, `clamp(value, min, max)` raises no error and
returns `max` for every value. -/
theorem clamp_min_gt_max (v lo hi : ℚ) (h : lo > hi) :
    clamp (.finite v) (.finite lo) (.finite hi) = .ok hi := by
  simp only [clamp]
  have : min (max v lo) hi = hi :=
    min_eq_right (le_trans h.le (le_max_right v lo))
  rw [this]

/-- Witness for C10 at `clamp 5 10 0 = 0`. -/
theorem clamp_min_gt_max_witness :
    clamp (.finite 5) (.finite 10) (.finite 0) = .ok 0 :=
  clamp_min_gt_max 5 10 0 (by norm_num)

/-! ## C8: interpolate inverts normalize -/

/-- C8: for valid finite `min < max` and `v ∈ [min, max]`,
`normalize(v, min, max)` lands in `[0, 1]` (so `interpolate`'s factor
precondition holds) and `interpolate(min, max, normalize(v, min, max))`
recovers `v` (exact in the rational model, hence approximately equal). -/
theorem interpolate_normalize_inverse (lo hi v : ℚ) (hlt : lo < hi)
    (hv1 : lo ≤ v) (hv2 : v ≤ hi) :
    ∃ f, normalize (.finite v) (.finite lo) (.finite hi) = .ok f ∧
      0 ≤ f ∧ f ≤ 1 ∧
      interpolate (.finite lo) (.finite hi) (.finite f) = .ok v := by
  have hne : hi - lo ≠ 0 := sub_ne_zero.mpr (ne_of_gt hlt)
  have hpos : (0 : ℚ) < hi - lo := sub_pos.mpr hlt
  refine ⟨(v - lo) / (hi - lo), ?_, ?_, ?_, ?_⟩
  · simp [normalize, not_le.mpr hlt]
  · exact div_nonneg (sub_nonneg.mpr hv1) hpos.le
  · exact (div_le_one hpos).mpr (sub_le_sub_right hv2 lo)
  · have hf0 : (0 : ℚ) ≤ (v - lo) / (hi - lo) :=
      div_nonneg (sub_nonneg.mpr hv1) hpos.le
    have hf1 : (v - lo) / (hi - lo) ≤ 1 :=
      (div_le_one hpos).mpr (sub_le_sub_right hv2 lo)
    have hcond : ¬ ((v - lo) / (hi - lo) < 0 ∨ (v - lo) / (hi - lo) > 1) := by
      push_neg
      exact ⟨hf0, hf1⟩
    simp only [interpolate, if_neg hcond]
    congr 1
    field_simp

/-- Witness for C8 at `min = 0`, `max = 2`, `v = 1`. -/
theorem interpolate_normalize_inverse_witness :
    ∃ f, normalize (.finite 1) (.finite 0) (.finite 2) = .ok f ∧
      0 ≤ f ∧ f ≤ 1 ∧
      interpolate (.finite 0) (.finite 2) (.finite f) = .ok 1 :=
  interpolate_normalize_inverse 0 2 1 (by norm_num) (by norm_num) (by norm_num)

/-! ## C2: range of random -/

/-- C2 counterexample: with `min = 0.6`, `max = 0.7`, `decimals = 0` and
the draw `0` (so the uniform value is `0.6` itself), `random` returns
`1`, which is not in `[min, max]` — rounding can leave the interval. -/
theorem random_outside_range_cex :
    random (.finite (3/5)) (.finite (7/10)) 0 0 = .ok 1 ∧ ¬ ((1 : ℚ) ≤ 7/10) := by
  constructor
  · with_unfolding_all rfl
  · norm_num

/-- C2 amended: for valid finite `min ≤ max`, a valid decimals value and
any draw in `[0, 1)`, `random` succeeds and its result lies within half
a unit in the last rounded place of the interval, i.e. in
`[min - 10^-decimals / 2, max + 10^-decimals / 2]` (membership in
`[min, max]` itself can fail, by the counterexample). -/
theorem random_within_half_step (lo hi : ℚ) (d : ℤ) (draw : ℚ)
    (hle : lo ≤ hi) (hd0 : 0 ≤ d) (hd20 : d ≤ 20)
    (hr0 : 0 ≤ draw) (hr1 : draw < 1) :
    ∃ y, random (.finite lo) (.finite hi) d draw = .ok y ∧
      lo - 1 / (2 * 10 ^ d.toNat) ≤ y ∧ y ≤ hi + 1 / (2 * 10 ^ d.toNat) := by
  have hm : (0 : ℚ) < 10 ^ d.toNat := by positivity
  have hvalid : isValidDecimals d = true := by
    simp [isValidDecimals, hd0, hd20]
  have hnlt : ¬ (lo > hi) := not_lt.mpr hle
  have hzpow : (10 : ℚ) ^ d = (10 : ℚ) ^ d.toNat := by
    rw [← Int.toNat_of_nonneg hd0, zpow_natCast, Int.toNat_of_nonneg hd0]
  have hxlo : lo ≤ draw * (hi - lo) + lo := by nlinarith
  have hxhi : draw * (hi - lo) + lo ≤ hi := by nlinarith
  refine ⟨(⌊(draw * (hi - lo) + lo) * 10 ^ d.toNat + 1/2⌋ : ℚ) / 10 ^ d.toNat,
    ?_, ?_, ?_⟩
  · simp [random, roundToPrecision, jsRound, hvalid, hnlt, hzpow]
  · have h2 : (draw * (hi - lo) + lo) * 10 ^ d.toNat + 1/2 - 1 <
        (⌊(draw * (hi - lo) + lo) * 10 ^ d.toNat + 1/2⌋ : ℚ) :=
      Int.sub_one_lt_floor _
    have hx : lo * 10 ^ d.toNat ≤ (draw * (hi - lo) + lo) * 10 ^ d.toNat :=
      mul_le_mul_of_nonneg_right hxlo hm.le
    rw [le_div_iff₀ hm]
    have e : (lo - 1 / (2 * 10 ^ d.toNat)) * 10 ^ d.toNat =
        lo * 10 ^ d.toNat - 1/2 := by
      field_simp
      ring
    rw [e]
    linarith
  · have h1 : (⌊(draw * (hi - lo) + lo) * 10 ^ d.toNat + 1/2⌋ : ℚ) ≤
        (draw * (hi - lo) + lo) * 10 ^ d.toNat + 1/2 := Int.floor_le _
    have hx : (draw * (hi - lo) + lo) * 10 ^ d.toNat ≤ hi * 10 ^ d.toNat :=
      mul_le_mul_of_nonneg_right hxhi hm.le
    rw [div_le_iff₀ hm]
    have e : (hi + 1 / (2 * 10 ^ d.toNat)) * 10 ^ d.toNat =
        hi * 10 ^ d.toNat + 1/2 := by
      field_simp
      ring
    rw [e]
    linarith

/-- Witness for C2's amended bound at `min = 0`, `max = 1`,
`decimals = 0`, draw `1/2`. -/
theorem random_within_half_step_witness :
    ∃ y, random (.finite 0) (.finite 1) 0 (1/2) = .ok y ∧
      (0 : ℚ) - 1 / (2 * 10 ^ (0 : ℤ).toNat) ≤ y ∧
      y ≤ 1 + 1 / (2 * 10 ^ (0 : ℤ).toNat) :=
  random_within_half_step 0 1 0 (1/2) (by norm_num) (by norm_num)
    (by norm_num) (by norm_num) (by norm_num)

/-! ## C1: formatCurrency fallback versus raising -/

/-- C1 counterexample: with a fallback configured and a host formatter
that succeeds on everything, a value at `MAX_SAFE_INTEGER` still makes
`formatCurrency` raise `NumberFormatError` — the `catch` re-throws it
before the fallback is consulted, contradicting the claim that a
configured fallback is returned for every unformattable value. -/
theorem formatCurrency_msi_ignores_fallback_cex :
    formatCurrency (fun _ _ => some "$9,007,199,254,740,991.00")
      (.finite 9007199254740991) ⟨none, none, some "X", none, none, none⟩ =
      .error ⟨"Value exceeds maximum safe integer"⟩ := by
  with_unfolding_all rfl

/-- C1 amended: the configured fallback is returned for `NaN` and
infinite inputs, and for host-formatter failures below
`MAX_SAFE_INTEGER` when the fallback is truthy (nonempty); a value whose
magnitude is at or beyond `MAX_SAFE_INTEGER` raises `NumberFormatError`
even when a fallback is configured; an invalid input raises only when no
fallback is configured. -/
theorem formatCurrency_fallback_policy :
    (∀ (intl : CurrencyFormatOptions → ℚ → Option String) opts v f,
      isValidNumber v = false → opts.fallback = some f →
        formatCurrency intl v opts = .ok f) ∧
    (∀ (intl : CurrencyFormatOptions → ℚ → Option String) opts v,
      isValidNumber v = false → opts.fallback = none →
        formatCurrency intl v opts = .error ⟨"Invalid number input"⟩) ∧
    (∀ (intl : CurrencyFormatOptions → ℚ → Option String) opts (q : ℚ),
      maxSafeInteger ≤ |q| →
        formatCurrency intl (.finite q) opts =
          .error ⟨"Value exceeds maximum safe integer"⟩) ∧
    (∀ (intl : CurrencyFormatOptions → ℚ → Option String) opts (q : ℚ) s,
      |q| < maxSafeInteger → intl opts q = some s →
        formatCurrency intl (.finite q) opts = .ok s) ∧
    (∀ (intl : CurrencyFormatOptions → ℚ → Option String) opts (q : ℚ) f,
      |q| < maxSafeInteger → intl opts q = none → opts.fallback = some f →
        f ≠ "" → formatCurrency intl (.finite q) opts = .ok f) := by
  refine ⟨?_, ?_, ?_, ?_, ?_⟩
  · intro intl opts v f hv hf
    cases v <;> simp_all [formatCurrency, isValidNumber]
  · intro intl opts v hv hf
    cases v <;> simp_all [formatCurrency, isValidNumber]
  · intro intl opts q hq
    simp [formatCurrency, hq]
  · intro intl opts q s hq hs
    simp [formatCurrency, not_le.mpr hq, hs]
  · intro intl opts q f hq hi hf hne
    simp [formatCurrency, not_le.mpr hq, hi, hf, hne]

/-- Witness for C1's amended policy: the fallback is returned for `NaN`,
and a finite value below the bound is formatted by the host. -/
theorem formatCurrency_fallback_policy_witness :
    formatCurrency (fun _ _ => some "$5.00") .nan
      ⟨none, none, some "X", none, none, none⟩ = .ok "X" ∧
    formatCurrency (fun _ _ => some "$5.00") (.finite 5)
      ⟨none, none, some "X", none, none, none⟩ = .ok "$5.00" ∧
    formatCurrency (fun _ _ => none) (.finite 5)
      ⟨none, none, some "X", none, none, none⟩ = .ok "X" :=
  ⟨formatCurrency_fallback_policy.1 _ _ _ "X" rfl rfl,
   formatCurrency_fallback_policy.2.2.2.1 _ _ 5 "$5.00" (by norm_num [maxSafeInteger]) rfl,
   formatCurrency_fallback_policy.2.2.2.2 _ _ 5 "X" (by norm_num [maxSafeInteger]) rfl rfl
     (by decide)⟩

/-! ## C3: isApproximatelyEqual relative comparison -/

/-- C3 counterexample: at `a = 1`, `b = -1` with relative tolerance `3`,
the claim's reading (relative comparison against the average magnitude
`(|a|+|b|)/2 = 1`) yields `true`, but the source computes
`avg = |a+b|/2 = 0` and falls back to the absolute tolerance, yielding
`false`. -/
theorem isApproximatelyEqual_avg_magnitude_cex :
    isApproximatelyEqual (.finite 1) (.finite (-1)) ⟨none, some 3⟩ = .ok false ∧
    isApproximatelyEqualSpec (.finite 1) (.finite (-1)) ⟨none, some 3⟩ = .ok true := by
  constructor
  · with_unfolding_all rfl
  · with_unfolding_all rfl

/-- C3 amended: with a relative tolerance, `isApproximatelyEqual`
compares `|a-b|` against relative times the magnitude of the average,
`|a+b|/2`, and falls back to the absolute tolerance exactly when
`a + b = 0` — so for `a = -b` with `a ≠ 0` the absolute fallback (not
the relative comparison) is used. -/
theorem isApproximatelyEqual_relative_semantics (x y r : ℚ)
    (prec : NumberPrecision) (hrel : prec.relative = some r) :
    (x + y ≠ 0 →
      (isApproximatelyEqual (.finite x) (.finite y) prec = .ok true ↔
        |x - y| < r * (|x + y| / 2))) ∧
    (x + y = 0 →
      isApproximatelyEqual (.finite x) (.finite y) prec =
        .ok (decide (|x - y| < prec.absolute.getD (1 / 10 ^ 10)))) := by
  constructor
  · intro hne
    have habs : |x + y| / 2 ≠ 0 := by
      simp [abs_eq_zero, hne]
    have hpos : 0 < |x + y| / 2 := by
      rcases lt_or_eq_of_le (abs_nonneg (x + y)) with h | h
      · positivity
      · exact absurd h.symm (by simp [abs_eq_zero, hne])
    simp only [isApproximatelyEqual, hrel, if_neg habs, Except.ok.injEq,
      decide_eq_true_eq]
    rw [div_lt_iff₀ hpos]
  · intro hzero
    simp [isApproximatelyEqual, hrel, hzero]

/-- Witness for C3's amended semantics at `a = 100`, `b = 102`,
relative tolerance `1/10`: `|a-b| = 2 < (1/10)·101`. -/
theorem isApproximatelyEqual_relative_semantics_witness :
    isApproximatelyEqual (.finite 100) (.finite 102) ⟨none, some (1/10)⟩ =
      .ok true :=
  ((isApproximatelyEqual_relative_semantics 100 102 (1/10) ⟨none, some (1/10)⟩
    rfl).1 (by norm_num)).mpr (by rw [abs_of_nonpos (by norm_num), abs_of_nonneg (by norm_num)]; norm_num)

/-! ## C7: median -/

/-- C7 counterexample: for the odd-length sequence `[1.239]` the middle
element is `1.239`, but `median` returns `1.24` — the odd-length branch
also rounds to the configured precision, so `median` does not return the
middle element itself. -/
theorem median_rounds_odd_cex :
    median [1239/1000] ⟨none, none⟩ = .ok (31/25) ∧ ((31 : ℚ)/25) ≠ 1239/1000 := by
  constructor
  · with_unfolding_all rfl
  · norm_num

/-- C7 amended: `median` sorts ascending and selects the middle element
(odd length) or the mean of the two middle elements (even length), and
in both branches rounds the selected value with `roundToPrecision` at
the configured precision (default 2); the empty sequence yields 0; in
particular `median [1,2,3,4,5] = 3` and `median [1,2,3,4] = 2.5`. -/
theorem median_sorted_middle :
    (∀ opts : StatisticsOptions, median [] opts = .ok 0) ∧
    (∀ (l : List ℚ) (opts : StatisticsOptions), l ≠ [] →
      ∃ s : List ℚ, s.Perm l ∧ s.Sorted (· ≤ ·) ∧
        median l opts =
          roundToPrecision
            (.finite (if l.length % 2 = 0 then
                (s.getD (l.length / 2 - 1) 0 + s.getD (l.length / 2) 0) / 2
              else s.getD (l.length / 2) 0))
            (opts.precision.getD 2) .round) ∧
    median [1, 2, 3, 4, 5] ⟨none, none⟩ = .ok 3 ∧
    median [1, 2, 3, 4] ⟨none, none⟩ = .ok (5/2) := by
  refine ⟨?_, ?_, ?_, ?_⟩
  · intro opts
    simp [median]
  · intro l opts hne
    refine ⟨l.insertionSort (· ≤ ·), List.perm_insertionSort _ l,
      List.sorted_insertionSort _ l, ?_⟩
    have hlen : (l.insertionSort (· ≤ ·)).length = l.length :=
      (List.perm_insertionSort _ l).length_eq
    have hne0 : ¬ l.length = 0 := by
      simpa [List.length_eq_zero] using hne
    simp only [median, hlen, if_neg hne0]
    split <;> rfl
  · with_unfolding_all rfl
  · with_unfolding_all rfl

/-- Witness for C7's amended description at the even-length list `[3, 1]`. -/
theorem median_sorted_middle_witness :
    ∃ s : List ℚ, s.Perm [3, 1] ∧ s.Sorted (· ≤ ·) ∧
      median [3, 1] ⟨none, none⟩ =
        roundToPrecision (.finite ((s.getD 0 0 + s.getD 1 0) / 2)) 2 .round :=
  median_sorted_middle.2.1 [3, 1] ⟨none, none⟩ (by decide)

/-! ## C4: parseNumber -/

/-- Modelled from the spec: a normalized string is a valid numeral when
it matches the optional-sign digits-with-optional-single-period pattern
and actually contains a digit. -/
def specValidNumeral (cs : List Char) : Bool :=
  matchesNumPattern cs ∧ cs.any (·.isDigit)

/-- Modelled from the spec: the value of a fractional digit block, read
as nested division by ten (the place-value meaning of digits after the
period). -/
def decDigitsValue : List Char → ℚ
  | [] => 0
  | c :: rest => ((c.toNat - 48 : ℕ) + decDigitsValue rest) / 10

/-- Modelled from the spec: the parsed value of a valid normalized
numeral — sign times (integer digits plus the place-value reading of the
fraction digits). -/
def decValue (cs : List Char) : ℚ :=
  let body := stripSign cs
  let intDigits := body.takeWhile (·.isDigit)
  let fracDigits := fracPartOf (body.dropWhile (·.isDigit))
  signOf cs * ((natOfDigits intDigits : ℚ) + decDigitsValue fracDigits)

theorem natOfDigits_foldl (a : ℕ) (cs : List Char) :
    cs.foldl (fun a c => a * 10 + (c.toNat - 48)) a =
      a * 10 ^ cs.length + natOfDigits cs := by
  induction cs generalizing a with
  | nil =>
    simp [natOfDigits]
  | cons c rest ih =>
    rw [List.foldl_cons, ih, List.length_cons]
    have h0 : natOfDigits (c :: rest) =
        rest.foldl (fun a c => a * 10 + (c.toNat - 48)) (0 * 10 + (c.toNat - 48)) := rfl
    rw [h0, ih]
    ring

theorem natOfDigits_cons (c : Char) (rest : List Char) :
    natOfDigits (c :: rest) = (c.toNat - 48) * 10 ^ rest.length + natOfDigits rest := by
  have h0 : natOfDigits (c :: rest) =
      rest.foldl (fun a c => a * 10 + (c.toNat - 48)) (0 * 10 + (c.toNat - 48)) := rfl
  rw [h0, natOfDigits_foldl]
  simp

theorem decDigitsValue_eq_div_pow (cs : List Char) :
    decDigitsValue cs = (natOfDigits cs : ℚ) / 10 ^ cs.length := by
  induction cs with
  | nil => simp [decDigitsValue, natOfDigits]
  | cons c rest ih =>
    simp only [decDigitsValue]
    rw [ih, natOfDigits_cons, List.length_cons, pow_succ]
    push_cast
    field_simp

theorem stripSign_sublist (cs : List Char) : (stripSign cs).Sublist cs := by
  cases cs with
  | nil => simp [stripSign]
  | cons c rest =>
    simp only [stripSign]
    split
    · exact List.sublist_cons_self c rest
    · exact List.Sublist.refl _

theorem fracPartOf_dot (r : List Char) : fracPartOf ('.' :: r) = r := rfl

theorem fracPartOf_ne (c : Char) (r : List Char) (hc : c ≠ '.') :
    fracPartOf (c :: r) = [] := by
  unfold fracPartOf
  split
  · rename_i heq
    injection heq with h1 h2
    exact absurd h1 hc
  · rfl

/-- When the normalized string contains no digit but matches the
pattern, `Number` yields `NaN` (modelled as `none`). -/
theorem jsNumberOfNormalized_no_digit (cs : List Char)
    (hpat : matchesNumPattern cs = true)
    (hnd : cs.any (·.isDigit) = false) :
    jsNumberOfNormalized cs = none := by
  have hbody : ∀ x ∈ stripSign cs, x.isDigit = false := by
    intro x hx
    have hxcs : x ∈ cs := (stripSign_sublist cs).mem hx
    simpa using List.any_eq_false.mp hnd x hxcs
  have hint : (stripSign cs).takeWhile (·.isDigit) = [] := by
    cases hb : stripSign cs with
    | nil => simp
    | cons c rest =>
      have hc : c.isDigit = false := by
        apply hbody
        rw [hb]
        exact List.mem_cons_self c rest
      simp [List.takeWhile_cons, hc]
  have hfrac : fracPartOf ((stripSign cs).dropWhile (·.isDigit)) = [] := by
    cases hdw : (stripSign cs).dropWhile (·.isDigit) with
    | nil => rfl
    | cons c rest =>
      by_cases hc : c = '.'
      · subst hc
        rw [fracPartOf_dot]
        cases rest with
        | nil => rfl
        | cons x rest2 =>
          exfalso
          have hx : x ∈ stripSign cs := by
            have hmem : x ∈ (stripSign cs).dropWhile (·.isDigit) := by
              rw [hdw]
              exact List.mem_cons_of_mem _ (List.mem_cons_self x rest2)
            exact (List.dropWhile_sublist _).mem hmem
          have hxd : x.isDigit = false := hbody x hx
          have hpat' := hpat
          simp only [matchesNumPattern, hdw] at hpat'
          simp only [decide_eq_true_eq] at hpat'
          have hall := hpat'.2
          have := List.all_eq_true.mp hall x (List.mem_cons_self x rest2)
          simp [hxd] at this
      · rw [fracPartOf_ne c rest hc]
  simp only [jsNumberOfNormalized, hint, hfrac]
  simp

/-- When the normalized string is a valid numeral, `Number` yields its
place-value reading. -/
theorem jsNumberOfNormalized_valid (cs : List Char)
    (hv : specValidNumeral cs = true) :
    jsNumberOfNormalized cs = some (decValue cs) := by
  obtain ⟨hpat, hdig⟩ : matchesNumPattern cs = true ∧ cs.any (·.isDigit) = true := by
    have h := hv
    unfold specValidNumeral at h
    simpa using h
  have hcond : ¬ ((stripSign cs).takeWhile (·.isDigit) = [] ∧
      fracPartOf ((stripSign cs).dropWhile (·.isDigit)) = []) := by
    rintro ⟨hint, hfrac⟩
    obtain ⟨x, hxcs, hxdig⟩ := List.any_eq_true.mp hdig
    have hxdig' : x.isDigit = true := by simpa using hxdig
    have hxbody : x ∈ stripSign cs := by
      cases cs with
      | nil => simp at hxcs
      | cons c rest =>
        simp only [stripSign]
        split
        · rename_i hsign
          rcases List.mem_cons.mp hxcs with h | h
          · subst h
            rcases hsign with h' | h' <;> rw [h'] at hxdig' <;>
              exact absurd hxdig' (by decide)
          · exact h
        · exact hxcs
    have hsplit := @List.takeWhile_append_dropWhile _ (fun x => x.isDigit) (stripSign cs)
    rw [hint, List.nil_append] at hsplit
    rw [← hsplit] at hxbody
    cases hdw : (stripSign cs).dropWhile (·.isDigit) with
    | nil =>
      rw [hdw] at hxbody
      simp at hxbody
    | cons c rest =>
      rw [hdw] at hxbody
      have hpat' := hpat
      simp only [matchesNumPattern, hdw] at hpat'
      simp only [decide_eq_true_eq] at hpat'
      obtain ⟨hc, hall⟩ := hpat'
      subst hc
      rw [hdw, fracPartOf_dot] at hfrac
      subst hfrac
      rcases List.mem_cons.mp hxbody with h | h
      · subst h
        exact absurd hxdig' (by decide)
      · simp at h
  simp only [jsNumberOfNormalized, decValue]
  rw [if_neg hcond, decDigitsValue_eq_div_pow]

/-- C4: `parseNumber` (a total function in the model — it never raises)
returns `none` exactly when, after separator normalization, the input is
not a valid numeral: it is empty or whitespace-only, fails the
optional-sign digits-with-optional-single-period pattern, or has no
digit at all (the strings `Number` parses to `NaN`); for every other
input it returns the parsed number, the signed place-value reading of
its digit blocks.  (Overflow to a non-finite double has no counterpart
in the exact rational model.) -/
theorem parseNumber_spec (s : String) :
    (parseNumber s = none ↔ specValidNumeral (normalizeNumString s) = false) ∧
    (specValidNumeral (normalizeNumString s) = true →
      parseNumber s = some (decValue (normalizeNumString s))) := by
  have hmain : specValidNumeral (normalizeNumString s) = true →
      parseNumber s = some (decValue (normalizeNumString s)) := by
    intro hv
    obtain ⟨hpat, hdig⟩ : matchesNumPattern (normalizeNumString s) = true ∧
        (normalizeNumString s).any (·.isDigit) = true := by
      have h := hv
      unfold specValidNumeral at h
      simpa using h
    obtain ⟨x, hxnorm, hxdig⟩ := List.any_eq_true.mp hdig
    have hxdig' : x.isDigit = true := by simpa using hxdig
    have hxs : x ∈ s.data := by
      unfold normalizeNumString at hxnorm
      exact (List.mem_filter.mp (List.mem_filter.mp hxnorm).1).1
    have hws : s.data.all jsWhitespace = false := by
      rw [List.all_eq_false]
      refine ⟨x, hxs, ?_⟩
      intro hwx
      unfold jsWhitespace at hwx
      simp only [decide_eq_true_eq] at hwx
      rcases hwx with h | h | h | h <;> rw [h] at hxdig' <;>
        exact absurd hxdig' (by decide)
    have hspecial : ¬ (normalizeNumString s = [] ∨ normalizeNumString s = ['.'] ∨
        normalizeNumString s = ['-'] ∨ normalizeNumString s = ['+']) := by
      rintro (h | h | h | h) <;> rw [h] at hxnorm <;> simp at hxnorm <;>
        rw [hxnorm] at hxdig' <;> exact absurd hxdig' (by decide)
    simp only [parseNumber, hws]
    rw [if_neg (by simp), if_neg hspecial, if_neg (by simp [hpat])]
    exact jsNumberOfNormalized_valid _ hv
  refine ⟨⟨?_, ?_⟩, hmain⟩
  · intro hnone
    by_contra hv
    rw [Bool.not_eq_false] at hv
    rw [hmain hv] at hnone
    exact Option.some_ne_none _ hnone
  · intro hv
    simp only [parseNumber]
    by_cases hws : s.data.all jsWhitespace = true
    · rw [hws]
      simp
    · rw [Bool.not_eq_true] at hws
      rw [hws]
      rw [if_neg (by simp)]
      by_cases hspecial : normalizeNumString s = [] ∨ normalizeNumString s = ['.'] ∨
          normalizeNumString s = ['-'] ∨ normalizeNumString s = ['+']
      · rw [if_pos hspecial]
      · rw [if_neg hspecial]
        by_cases hpat : matchesNumPattern (normalizeNumString s) = true
        · rw [if_neg (by simp [hpat])]
          have hnd : (normalizeNumString s).any (·.isDigit) = false := by
            by_contra hc
            rw [Bool.not_eq_false] at hc
            have htrue : specValidNumeral (normalizeNumString s) = true := by
              unfold specValidNumeral
              simp [hpat, hc]
            rw [htrue] at hv
            simp at hv
          exact jsNumberOfNormalized_no_digit _ hpat hnd
        · rw [if_pos (by simpa using hpat)]


theorem parseNumber_spec_witness :
    parseNumber "1,234.56" = some (30864/25) := by
  have h := (parseNumber_spec "1,234.56").2 (by decide)
  rw [h]
  with_unfolding_all rfl

/-! ## C6 and C9: maskNumber -/

theorem digitChar_isDigit (n : ℕ) : (digitChar n).isDigit = true := by
  unfold digitChar
  have h : n % 10 < 10 := Nat.mod_lt _ (by norm_num)
  set k := n % 10 with hk
  interval_cases k <;> decide

theorem natDigitsAux_all_digits (fuel n : ℕ) :
    (natDigitsAux fuel n).all (·.isDigit) = true := by
  induction fuel generalizing n with
  | zero => rfl
  | succ fuel ih =>
    simp only [natDigitsAux]
    split
    · simp [digitChar_isDigit]
    · rw [List.all_append]
      simp [ih, digitChar_isDigit]

theorem natDigits_all_digits (n : ℕ) : (natDigits n).all (·.isDigit) = true :=
  natDigitsAux_all_digits (n + 1) n

theorem natDigits_ne_nil (n : ℕ) : natDigits n ≠ [] := by
  unfold natDigits natDigitsAux
  split
  · simp
  · simp

theorem ne_dot_of_isDigit (c : Char) (h : c.isDigit = true) : c ≠ '.' := by
  intro h'
  rw [h'] at h
  exact absurd h (by decide)

/-- `jsAbsToString` is insensitive to the sign of its argument. -/
theorem jsAbsToString_abs (q : ℚ) : jsAbsToString |q| = jsAbsToString q := by
  unfold jsAbsToString
  rw [abs_abs]

/-- Splitting a digit block followed by a period: the integer part is the
digit block and the decimal part is what follows the period. -/
theorem takeWhile_digits_dot (ds r : List Char) (h : ds.all (·.isDigit) = true) :
    (ds ++ '.' :: r).takeWhile (· ≠ '.') = ds ∧
      (ds ++ '.' :: r).dropWhile (· ≠ '.') = '.' :: r := by
  induction ds with
  | nil => simp [List.takeWhile_cons, List.dropWhile_cons]
  | cons d ds' ih =>
    rw [List.all_cons, Bool.and_eq_true] at h
    have hd : d ≠ '.' := ne_dot_of_isDigit d h.1
    obtain ⟨h1, h2⟩ := ih h.2
    constructor
    · rw [List.cons_append, List.takeWhile_cons, if_pos (by simp [hd]), h1]
    · rw [List.cons_append, List.dropWhile_cons, if_pos (by simp [hd]), h2]

/-- A pure digit block has no period to split at. -/
theorem takeWhile_digits_only (ds : List Char) (h : ds.all (·.isDigit) = true) :
    ds.takeWhile (· ≠ '.') = ds ∧ ds.dropWhile (· ≠ '.') = [] := by
  induction ds with
  | nil => simp
  | cons d ds' ih =>
    rw [List.all_cons, Bool.and_eq_true] at h
    have hd : d ≠ '.' := ne_dot_of_isDigit d h.1
    obtain ⟨h1, h2⟩ := ih h.2
    constructor
    · rw [List.takeWhile_cons, if_pos (by simp [hd]), h1]
    · rw [List.dropWhile_cons, if_pos (by simp [hd]), h2]

/-- The integer part of the rendered string is never empty. -/
theorem intPart_ne_nil (q : ℚ) :
    (jsAbsToString q).data.takeWhile (· ≠ '.') ≠ [] := by
  unfold jsAbsToString
  obtain ⟨c, cs', hc⟩ :=
    List.exists_cons_of_ne_nil (natDigits_ne_nil (⌊|q|⌋).toNat)
  have hcd : c.isDigit = true := by
    have := natDigits_all_digits (⌊|q|⌋).toNat
    rw [hc, List.all_cons, Bool.and_eq_true] at this
    exact this.1
  have hcne : c ≠ '.' := ne_dot_of_isDigit c hcd
  show (String.mk _).data.takeWhile (· ≠ '.') ≠ []
  simp only [String.data]
  rw [hc]
  split
  · rw [List.append_nil, List.takeWhile_cons, if_pos (by simp [hcne])]
    simp
  · rw [List.cons_append, List.takeWhile_cons, if_pos (by simp [hcne])]
    simp

/-- The fractional path of `maskNumber`: when the rendered string has a
decimal part, the whole integer part is masked (whatever `start`/`end`
say), the decimal digits are kept under `preserveDecimals` and otherwise
masked with `'*'` for a no-option call and `'#'` otherwise, and no sign
is restored. -/
theorem maskNumber_fracCase (q : ℚ) (opts : NumberMaskOptions) (ds : List Char)
    (h : decPartOf (jsAbsToString q).data = some ds) :
    maskNumber (.finite q) opts =
      .ok (String.mk (strRepeat (opts.mask.getD "*")
          ((jsAbsToString q).data.takeWhile (· ≠ '.')).length ++
        '.' :: (if opts.preserveDecimals.getD false then ds
          else strRepeat (if opts.isEmpty then "*" else "#") ds.length))) := by
  simp only [maskNumber, h]
  by_cases hp : opts.preserveDecimals.getD false
  · simp [hp]
  · simp [hp]

/-- The default integer path of `maskNumber`: with no options and no
decimal part, the mask covers all but the last two characters and the
sign is restored. -/
theorem maskNumber_intCaseDefault (q : ℚ)
    (h : decPartOf (jsAbsToString q).data = none) :
    maskNumber (.finite q) ⟨none, none, none, none⟩ =
      .ok (String.mk ((if q < 0 then ['-'] else []) ++
        (strRepeat "*" (((jsAbsToString q).data.takeWhile (· ≠ '.')).length - 2) ++
          jsSliceLast ((jsAbsToString q).data.takeWhile (· ≠ '.')) 2))) := by
  simp only [maskNumber, h]
  have hdef : (⟨none, none, none, none⟩ : NumberMaskOptions).isEmpty = true := rfl
  by_cases hq : q < 0
  · simp [hdef, hq]
  · simp [hdef, hq]

/-- C6: when the value has a fractional part, `maskNumber` masks the
entire integer part regardless of `start`/`end`; decimal digits are kept
verbatim under `preserveDecimals` and otherwise masked with `'*'` for
no-option calls and `'#'` when any option is supplied; with no options
on an integer, exactly the last 2 digits stay visible under the repeated
mask; and `maskNumber 1234567 = "*****67"`,
`maskNumber 1234.56 = "****.**"`,
`maskNumber 1234.56 {preserveDecimals := true} = "****.56"`. -/
theorem maskNumber_spec :
    (∀ (q : ℚ) (opts : NumberMaskOptions) (ds : List Char),
      decPartOf (jsAbsToString q).data = some ds →
      maskNumber (.finite q) opts =
        .ok (String.mk (strRepeat (opts.mask.getD "*")
            ((jsAbsToString q).data.takeWhile (· ≠ '.')).length ++
          '.' :: (if opts.preserveDecimals.getD false then ds
            else strRepeat (if opts.isEmpty then "*" else "#") ds.length)))) ∧
    (∀ q : ℚ, 0 ≤ q → decPartOf (jsAbsToString q).data = none →
      maskNumber (.finite q) ⟨none, none, none, none⟩ =
        .ok (String.mk (strRepeat "*"
            (((jsAbsToString q).data.takeWhile (· ≠ '.')).length - 2) ++
          jsSliceLast ((jsAbsToString q).data.takeWhile (· ≠ '.')) 2))) ∧
    maskNumber (.finite 1234567) ⟨none, none, none, none⟩ = .ok "*****67" ∧
    maskNumber (.finite (123456/100)) ⟨none, none, none, none⟩ = .ok "****.**" ∧
    maskNumber (.finite (123456/100)) ⟨none, none, none, some true⟩ = .ok "****.56" := by
  refine ⟨maskNumber_fracCase, ?_, ?_, ?_, ?_⟩
  · intro q hq h
    rw [maskNumber_intCaseDefault q h, if_neg (not_lt.mpr hq), List.nil_append]
  · with_unfolding_all rfl
  · with_unfolding_all rfl
  · with_unfolding_all rfl

/-- Witness for C6 at `1234.56` with explicit `start := 1, end := 1`:
the integer part is fully masked anyway and the decimals take `'#'`. -/
theorem maskNumber_spec_witness :
    maskNumber (.finite (123456/100)) ⟨some 1, some 1, none, none⟩ = .ok "****.##" := by
  have h := maskNumber_spec.1 (123456/100) ⟨some 1, some 1, none, none⟩
    (['5', '6']) (by with_unfolding_all rfl)
  rw [h]
  with_unfolding_all rfl

/-- C9: on the fractional path the sign is dropped: the output of
`maskNumber` is the same for `q` and `|q|`, and (for the default mask)
never begins with a minus sign; in particular
`maskNumber (-1234.56) = "****.**"`. -/
theorem maskNumber_fractional_no_sign :
    (∀ (q : ℚ) (opts : NumberMaskOptions) (ds : List Char),
      decPartOf (jsAbsToString q).data = some ds →
      maskNumber (.finite q) opts = maskNumber (.finite |q|) opts) ∧
    (∀ (q : ℚ) (opts : NumberMaskOptions) (ds : List Char) (s : String),
      decPartOf (jsAbsToString q).data = some ds → opts.mask = none →
      maskNumber (.finite q) opts = .ok s → s.data.head? ≠ some '-') ∧
    maskNumber (.finite (-123456/100)) ⟨none, none, none, none⟩ = .ok "****.**" := by
  refine ⟨?_, ?_, ?_⟩
  · intro q opts ds h
    have habs : decPartOf (jsAbsToString |q|).data = some ds := by
      rw [jsAbsToString_abs]
      exact h
    rw [maskNumber_fracCase q opts ds h, maskNumber_fracCase |q| opts ds habs,
      jsAbsToString_abs]
  · intro q opts ds s h hmask hs
    rw [maskNumber_fracCase q opts ds h] at hs
    have hsdata : s.data = strRepeat (opts.mask.getD "*")
        ((jsAbsToString q).data.takeWhile (· ≠ '.')).length ++
      '.' :: (if opts.preserveDecimals.getD false then ds
        else strRepeat (if opts.isEmpty then "*" else "#") ds.length) := by
      have := hs
      injection this with h1
      rw [← h1]
    obtain ⟨c, cs', hc⟩ :=
      List.exists_cons_of_ne_nil (intPart_ne_nil q)
    have hlen : 1 ≤ ((jsAbsToString q).data.takeWhile (· ≠ '.')).length := by
      rw [hc]
      simp
    obtain ⟨k, hk⟩ : ∃ k, ((jsAbsToString q).data.takeWhile (· ≠ '.')).length =
        k + 1 := ⟨_, (Nat.succ_pred_eq_of_pos hlen).symm⟩
    rw [hmask] at hsdata
    rw [hk] at hsdata
    have hrep : strRepeat (Option.getD none "*") (k + 1) =
        '*' :: strRepeat "*" k := by
      simp [strRepeat, List.replicate_succ]
    rw [hrep] at hsdata
    rw [hsdata]
    simp
  · with_unfolding_all rfl

/-- Witness for C9 at `-1234.56` with `preserveDecimals := true`: the
output keeps the decimals and carries no sign. -/
theorem maskNumber_fractional_no_sign_witness :
    maskNumber (.finite (-123456/100)) ⟨none, none, none, some true⟩ =
      maskNumber (.finite |(-123456/100 : ℚ)|) ⟨none, none, none, some true⟩ ∧
    maskNumber (.finite (-123456/100)) ⟨none, none, none, some true⟩ =
      .ok "****.56" := by
  constructor
  · exact maskNumber_fractional_no_sign.1 (-123456/100) ⟨none, none, none, some true⟩
      (['5', '6']) (by with_unfolding_all rfl)
  · with_unfolding_all rfl

/-! ## C5: formatNumber -/

theorem groupDigits_short (sep : List Char) :
    ∀ cs : List Char, cs.length ≤ 3 → groupDigits sep cs = cs := by
  intro cs
  induction cs with
  | nil => intro _; rfl
  | cons c rest ih =>
    intro h
    have hlen : rest.length ≤ 2 := by
      simp only [List.length_cons] at h
      omega
    have hcond : ¬ (rest ≠ [] ∧ rest.length % 3 = 0) := by
      rintro ⟨hne, hmod⟩
      have h1 : 1 ≤ rest.length := List.length_pos.mpr hne
      omega
    simp only [groupDigits, if_neg hcond]
    rw [ih (by omega)]

theorem revGroup_of_le (sep : List Char) :
    ∀ (k : ℕ) (xs : List Char), xs.length ≤ k → revGroup sep k xs = xs := by
  intro k xs
  induction xs generalizing k with
  | nil => intro _; cases k <;> rfl
  | cons c rest ih =>
    intro h
    cases k with
    | zero => simp at h
    | succ k' =>
      simp only [revGroup]
      rw [ih k' (by simpa using h)]

theorem groupDigitsSpec_short (sep : List Char) (cs : List Char)
    (h : cs.length ≤ 3) : groupDigitsSpec sep cs = cs := by
  unfold groupDigitsSpec
  rw [revGroup_of_le sep.reverse 3 cs.reverse (by simpa using h), List.reverse_reverse]

theorem revGroup_zero (sep : List Char) (xs : List Char) (h : xs ≠ []) :
    revGroup sep 0 xs = sep ++ revGroup sep 3 xs := by
  cases xs with
  | nil => exact absurd rfl h
  | cons c rest => rfl

theorem groupDigits_append3 (sep : List Char) :
    ∀ cs ds : List Char, cs ≠ [] → ds.length = 3 →
      groupDigits sep (cs ++ ds) = groupDigits sep cs ++ sep ++ ds := by
  intro cs
  induction cs with
  | nil => intro ds h _; exact absurd rfl h
  | cons c rest ih =>
    intro ds _ hds
    have hdsne : ds ≠ [] := by
      intro h0
      rw [h0] at hds
      simp at hds
    rw [List.cons_append]
    by_cases hr : rest = []
    · subst hr
      have hcond : ds ≠ [] ∧ ds.length % 3 = 0 := ⟨hdsne, by omega⟩
      simp only [groupDigits, List.nil_append, if_pos hcond]
      have hcond2 : ¬ (([] : List Char) ≠ [] ∧ ([] : List Char).length % 3 = 0) := by
        simp
      simp only [if_neg hcond2]
      rw [groupDigits_short sep ds (by omega)]
      simp [groupDigits]
    · have hlen : (rest ++ ds).length = rest.length + 3 := by
        rw [List.length_append, hds]
      have hne2 : rest ++ ds ≠ [] := by
        intro h0
        exact hr (List.append_eq_nil.mp h0).1
      by_cases hmod : rest.length % 3 = 0
      · have hcond : rest ++ ds ≠ [] ∧ (rest ++ ds).length % 3 = 0 :=
          ⟨hne2, by omega⟩
        have hcond' : rest ≠ [] ∧ rest.length % 3 = 0 := ⟨hr, hmod⟩
        simp only [groupDigits, if_pos hcond, if_pos hcond']
        rw [ih ds hr hds]
        simp [List.append_assoc]
      · have hcond : ¬ (rest ++ ds ≠ [] ∧ (rest ++ ds).length % 3 = 0) := by
          rintro ⟨_, hm⟩
          omega
        have hcond' : ¬ (rest ≠ [] ∧ rest.length % 3 = 0) := by
          rintro ⟨_, hm⟩
          exact hmod hm
        simp only [groupDigits, if_neg hcond, if_neg hcond']
        rw [ih ds hr hds]
        simp [List.append_assoc]

theorem groupDigitsSpec_append3 (sep : List Char) (cs ds : List Char)
    (hcs : cs ≠ []) (hds : ds.length = 3) :
    groupDigitsSpec sep (cs ++ ds) = groupDigitsSpec sep cs ++ sep ++ ds := by
  have hdsne : ds ≠ [] := by
    intro h0
    rw [h0] at hds
    simp at hds
  obtain ⟨a, ds1, rfl⟩ := List.exists_cons_of_ne_nil hdsne
  obtain ⟨b, ds2, rfl⟩ : ∃ b t, ds1 = b :: t := by
    cases ds1 with
    | nil => simp at hds
    | cons b t => exact ⟨b, t, rfl⟩
  obtain ⟨c, ds3, rfl⟩ : ∃ c t, ds2 = c :: t := by
    cases ds2 with
    | nil => simp at hds
    | cons c t => exact ⟨c, t, rfl⟩
  have h3 : ds3 = [] := by
    have hlen0 : ds3.length = 0 := by
      simp only [List.length_cons] at hds
      omega
    exact List.length_eq_zero.mp hlen0
  subst h3
  unfold groupDigitsSpec
  have hrev : (cs ++ [a, b, c]).reverse = c :: b :: a :: cs.reverse := by
    simp
  rw [hrev]
  have hrevne : cs.reverse ≠ [] := by
    simpa using hcs
  simp only [revGroup]
  rw [revGroup_zero sep.reverse cs.reverse hrevne]
  simp

/-- The source's grouping regex and the spec's right-to-left grouping
agree on every string. -/
theorem groupDigits_eq_spec (sep : List Char) (cs : List Char) :
    groupDigits sep cs = groupDigitsSpec sep cs := by
  have H : ∀ (n : ℕ) (cs : List Char), cs.length = n →
      groupDigits sep cs = groupDigitsSpec sep cs := by
    intro n
    induction n using Nat.strong_induction_on with
    | _ n ih =>
      intro cs hlen
      by_cases hsh : cs.length ≤ 3
      · rw [groupDigits_short sep cs hsh, groupDigitsSpec_short sep cs hsh]
      · push_neg at hsh
        have htake_len : (cs.take (cs.length - 3)).length = cs.length - 3 := by
          rw [List.length_take]
          omega
        have hdrop_len : (cs.drop (cs.length - 3)).length = 3 := by
          rw [List.length_drop]
          omega
        have htakene : cs.take (cs.length - 3) ≠ [] := by
          intro h0
          rw [h0] at htake_len
          simp at htake_len
          omega
        have hsplit : cs.take (cs.length - 3) ++ cs.drop (cs.length - 3) = cs :=
          List.take_append_drop _ cs
        rw [← hsplit, groupDigits_append3 sep _ _ htakene hdrop_len,
          groupDigitsSpec_append3 sep _ _ htakene hdrop_len,
          ih (cs.length - 3) (by omega) _ htake_len]
  exact H cs.length cs rfl

/-- C5: for a valid finite value and a valid configuration,
`formatNumber` produces exactly the spec's rendering: exponential
notation at or beyond `MAX_SAFE_INTEGER`, and otherwise the fixed
`decimals`-digit rendering of the absolute value with the thousands
separator inserted every 3 digits from the right in the integer part,
the parts joined by the decimal separator, and the sign restored. -/
theorem formatNumber_matches_spec (q : ℚ) (opts : NumberFormatOptions)
    (hd : isValidDecimals (opts.decimals.getD 2) = true)
    (hts : isValidSeparator (opts.thousandsSeparator.getD ",") = true)
    (hds : isValidSeparator (opts.decimalSeparator.getD ".") = true)
    (hne : opts.thousandsSeparator.getD "," ≠ opts.decimalSeparator.getD ".") :
    formatNumber (.finite q) opts =
      .ok (formatNumberSpec q (opts.decimals.getD 2).toNat
        (opts.thousandsSeparator.getD ",") (opts.decimalSeparator.getD ".")) := by
  simp only [formatNumber, formatNumberSpec, fixedRenderSpec]
  rw [if_neg (by simp [hd]), if_neg (by simp [hts, hds]), if_neg hne]
  by_cases hmsi : maxSafeInteger ≤ |q|
  · rw [if_pos hmsi, if_pos hmsi]
  · rw [if_neg hmsi, if_neg hmsi, groupDigits_eq_spec]
    by_cases hq : q < 0
    · simp [hq]
    · simp [hq]

/-- Witness for C5 at the spec's scenarios: default options give
`"1,234,567.89"`, swapped separators give `"1.234.567,89"`, and a value
beyond `MAX_SAFE_INTEGER` is rendered exponentially. -/
theorem formatNumber_matches_spec_witness :
    formatNumber (.finite (123456789/100)) ⟨none, none, none, none⟩ =
      .ok "1,234,567.89" ∧
    formatNumber (.finite (123456789/100)) ⟨none, some ".", some ",", none⟩ =
      .ok "1.234.567,89" ∧
    formatNumber (.finite 9007199254740992) ⟨none, none, none, none⟩ =
      .ok "9.01e+15" := by
  refine ⟨?_, ?_, ?_⟩
  · rw [formatNumber_matches_spec (123456789/100) ⟨none, none, none, none⟩
      (by decide) (by decide) (by decide) (by decide)]
    with_unfolding_all rfl
  · rw [formatNumber_matches_spec (123456789/100) ⟨none, some ".", some ",", none⟩
      (by decide) (by decide) (by decide) (by decide)]
    with_unfolding_all rfl
  · rw [formatNumber_matches_spec 9007199254740992 ⟨none, none, none, none⟩
      (by decide) (by decide) (by decide) (by decide)]
    with_unfolding_all rfl

end PolyKit
